import Mathlib

/-!
Verification of the managed-buffer lifecycle, implicit dependency-graph
scheduler and atomic memory-ordering model described by the
CodeAccelerate/SYCL programming guide.  The repository itself contains only
prose chapters and short example programs; the runtime they exercise is an
external collaborator, so the subsystem under verification is modelled here
from the guide's design description (spec) and from the factory table and
operation tables printed in the chapters.
-/

namespace SyclGuide

/-- Modelled from the spec: the storage policy of a buffer — owns an internal
allocation, or wraps caller-supplied external memory. -/
inductive StoragePolicy where
  | internal
  | external
deriving DecidableEq, Repr

/-- Modelled from the spec: the release policy of a buffer — synchronous
(release blocks until safe) or asynchronous (release is non-blocking,
completion deferred). -/
inductive ReleasePolicy where
  | synchronous
  | asynchronous
deriving DecidableEq, Repr

/-- Modelled from the spec: the access mode a task declares on a buffer. -/
inductive Mode where
  | read
  | write
  | readWrite
deriving DecidableEq, Repr

/-- Modelled from the spec: the error taxonomy of the buffer lifecycle
manager; `create` can only fail with `invalidPolicy`. -/
inductive BufferError where
  | invalidPolicy
deriving DecidableEq, Repr

/-- Modelled from the spec: the metadata a buffer handle records at
creation time (immutable thereafter). -/
structure BufferHandle where
  extent : Nat
  storage : StoragePolicy
  release : ReleasePolicy
  writeback : Bool
  extPtr : Option Nat
deriving DecidableEq, Repr

/-- Modelled from the spec: `create(extent, storage_policy, release_policy,
writeback_flag, optional external_pointer)`.  Fails with `InvalidPolicy` if
the write-back flag is set without external storage, or if the external
pointer is absent while the storage policy is external. -/
def create (extent : Nat) (sp : StoragePolicy) (rp : ReleasePolicy)
    (wb : Bool) (ptr : Option Nat) : Except BufferError BufferHandle :=
  if wb = true ∧ sp ≠ StoragePolicy.external then
    Except.error BufferError.invalidPolicy
  else if sp = StoragePolicy.external ∧ ptr = none then
    Except.error BufferError.invalidPolicy
  else
    Except.ok ⟨extent, sp, rp, wb, ptr⟩

/-- A policy triple (storage, release, write-back). -/
abbrev PolicyTriple := StoragePolicy × ReleasePolicy × Bool

/-- All 2 × 2 × 2 = 8 policy combinations. -/
def allPolicyTriples : List PolicyTriple :=
  [StoragePolicy.internal, StoragePolicy.external].flatMap fun sp =>
    [ReleasePolicy.synchronous, ReleasePolicy.asynchronous].flatMap fun rp =>
      [false, true].map fun wb => (sp, rp, wb)

/-- A policy triple is constructible when `create` succeeds for some choice
of external-pointer argument; supplying a pointer exactly when storage is
external is the canonical choice. -/
def constructible (p : PolicyTriple) : Bool :=
  (create 1 p.1 p.2.1 p.2.2
    (if p.1 = StoragePolicy.external then some 0 else none)).isOk

/-- The six factory methods of the guide's factory-method table
(src/chapters/04-memory-model: make_sync_buffer, make_async_buffer,
make_sync_view, make_async_view, make_sync_writeback_view,
make_async_writeback_view), as (storage, release, write-back) triples;
"Destructor Blocks yes/no" corresponds to synchronous/asynchronous release. -/
def factoryTable : List PolicyTriple :=
  [ (StoragePolicy.internal, ReleasePolicy.synchronous, false)
  , (StoragePolicy.internal, ReleasePolicy.asynchronous, false)
  , (StoragePolicy.external, ReleasePolicy.synchronous, false)
  , (StoragePolicy.external, ReleasePolicy.asynchronous, false)
  , (StoragePolicy.external, ReleasePolicy.synchronous, true)
  , (StoragePolicy.external, ReleasePolicy.asynchronous, true) ]

/-- Modelled from the spec: the result of a compare-exchange operation on an
atomic location: the new stored value, the (possibly updated) expected value
held by the caller, and whether the exchange succeeded. -/
structure CasResult where
  stored : Int
  expected : Int
  success : Bool
deriving DecidableEq, Repr

/-- Modelled from the spec: `compare_exchange_strong` on an `AtomicRef`:
succeeds (stores `desired`) exactly when the stored value equals `expected`;
on failure the caller's `expected` is updated to the current stored value. -/
def compare_exchange_strong (stored expected desired : Int) : CasResult :=
  if stored = expected then ⟨desired, expected, true⟩
  else ⟨stored, stored, false⟩

/-- Modelled from the spec: `compare_exchange_weak` on an `AtomicRef`: like
the strong form, but additionally permitted to fail spuriously even when the
stored value equals `expected`; the nondeterministic choice is exposed as the
`spurious` argument.  On any failure the caller's `expected` is updated to
the current stored value. -/
def compare_exchange_weak (spurious : Bool) (stored expected desired : Int) :
    CasResult :=
  if stored = expected ∧ spurious = false then ⟨desired, expected, true⟩
  else ⟨stored, stored, false⟩

/-- Modelled from the spec: the memory orders of the Atomic & Fence
Subsystem. -/
inductive MemoryOrder where
  | relaxed
  | acquire
  | release
  | acq_rel
  | seq_cst
deriving DecidableEq, Repr, Fintype

/-- Modelled from the spec: the strength order on memory orders — `relaxed`
is weakest, `acquire` and `release` are incomparable and both below
`acq_rel`, and `seq_cst` is strongest.  `moLE a b` means `a` is at most as
strong as `b`. -/
def moLE : MemoryOrder → MemoryOrder → Bool
  | MemoryOrder.relaxed, _ => true
  | _, MemoryOrder.seq_cst => true
  | MemoryOrder.acquire, MemoryOrder.acquire => true
  | MemoryOrder.acquire, MemoryOrder.acq_rel => true
  | MemoryOrder.release, MemoryOrder.release => true
  | MemoryOrder.release, MemoryOrder.acq_rel => true
  | MemoryOrder.acq_rel, MemoryOrder.acq_rel => true
  | _, _ => false

/-- Strictly weaker in the memory-order strength lattice. -/
def moLT (a b : MemoryOrder) : Bool := moLE a b && !(moLE b a)

/-- Join (least upper bound) in the memory-order strength lattice. -/
def moJoin : MemoryOrder → MemoryOrder → MemoryOrder
  | MemoryOrder.relaxed, b => b
  | a, MemoryOrder.relaxed => a
  | MemoryOrder.seq_cst, _ => MemoryOrder.seq_cst
  | _, MemoryOrder.seq_cst => MemoryOrder.seq_cst
  | MemoryOrder.acq_rel, _ => MemoryOrder.acq_rel
  | _, MemoryOrder.acq_rel => MemoryOrder.acq_rel
  | MemoryOrder.acquire, MemoryOrder.acquire => MemoryOrder.acquire
  | MemoryOrder.release, MemoryOrder.release => MemoryOrder.release
  | MemoryOrder.acquire, MemoryOrder.release => MemoryOrder.acq_rel
  | MemoryOrder.release, MemoryOrder.acquire => MemoryOrder.acq_rel

/-- Meet (greatest lower bound) in the memory-order strength lattice. -/
def moMeet : MemoryOrder → MemoryOrder → MemoryOrder
  | MemoryOrder.seq_cst, b => b
  | a, MemoryOrder.seq_cst => a
  | MemoryOrder.relaxed, _ => MemoryOrder.relaxed
  | _, MemoryOrder.relaxed => MemoryOrder.relaxed
  | MemoryOrder.acq_rel, b => b
  | a, MemoryOrder.acq_rel => a
  | MemoryOrder.acquire, MemoryOrder.acquire => MemoryOrder.acquire
  | MemoryOrder.release, MemoryOrder.release => MemoryOrder.release
  | MemoryOrder.acquire, MemoryOrder.release => MemoryOrder.relaxed
  | MemoryOrder.release, MemoryOrder.acquire => MemoryOrder.relaxed

/-- Modelled from the spec: an access declaration, a (buffer, mode) pair
attached to a task at submission time. -/
structure Decl where
  buf : Nat
  mode : Mode
deriving DecidableEq, Repr

/-- Modelled from the spec: one task submission — the queue owning the task
and its list of access declarations.  The task's submission sequence number
is its index in the submission list. -/
structure Sub where
  queue : Nat
  decls : List Decl
deriving DecidableEq, Repr

/-- Write mode-class: `write` and `read-write` declarations. -/
def writeClass : Mode → Bool
  | Mode.read => false
  | _ => true

/-- Read mode-class: `read` and `read-write` declarations. -/
def readClass : Mode → Bool
  | Mode.write => false
  | _ => true

/-- Modelled from the spec: the conflict rule of §4.3 — read vs prior read
is the only non-conflicting pair; any combination involving a write or a
read-write conflicts. -/
def conflictM : Mode → Mode → Bool
  | Mode.read, Mode.read => false
  | _, _ => true

/-- Association-list lookup keyed by `Nat`. -/
def alookup {α : Type} : List (Nat × α) → Nat → Option α
  | [], _ => none
  | (k, v) :: rest, key => if k = key then some v else alookup rest key

/-- Record the declarations of task `t` whose mode satisfies `p` as the new
most recent declaration for their buffer (prepending shadows older
entries). -/
def recordTbl (p : Mode → Bool) (t : Nat)
    (tbl : List (Nat × (Nat × Mode))) (ds : List Decl) :
    List (Nat × (Nat × Mode)) :=
  ds.foldl (fun acc d => if p d.mode then (d.buf, (t, d.mode)) :: acc else acc) tbl

/-- Modelled from the spec: the scheduler's edge-construction state — the
next sequence number, the last task per queue, the most recent write-class
and read-class declaration per buffer, and the edges derived so far. -/
structure BuildSt where
  idx : Nat
  qlast : List (Nat × Nat)
  lastW : List (Nat × (Nat × Mode))
  lastR : List (Nat × (Nat × Mode))
  edges : List (Nat × Nat)
deriving Repr

/-- Conflict edges contributed by one declaration of the task with sequence
number `t`: an edge from the most recent non-superseded write-class and
read-class declaration on the same buffer whenever the modes conflict. -/
def declEdges (lastW lastR : List (Nat × (Nat × Mode))) (t : Nat)
    (d : Decl) : List (Nat × Nat) :=
  (match alookup lastW d.buf with
   | some (w, wm) => if conflictM wm d.mode then [(w, t)] else []
   | none => []) ++
  (match alookup lastR d.buf with
   | some (r, rm) => if conflictM rm d.mode then [(r, t)] else []
   | none => [])

/-- Modelled from the spec: edge construction run once at submission time
for one task (§4.3): a queue-order edge when the owning queue is ordered,
then a conflict edge per declaration against the most recent non-superseded
prior declaration on the same buffer, then the task is recorded as the new
most recent declaration per mode-class. -/
def processSub (ordered : Nat → Bool) (s : BuildSt) (sub : Sub) : BuildSt :=
  let t := s.idx
  let qes : List (Nat × Nat) :=
    if ordered sub.queue then
      match alookup s.qlast sub.queue with
      | some p => [(p, t)]
      | none => []
    else []
  let ces : List (Nat × Nat) := sub.decls.flatMap (declEdges s.lastW s.lastR t)
  { idx := t + 1
    qlast := (sub.queue, t) :: s.qlast
    lastW := recordTbl writeClass t s.lastW sub.decls
    lastR := recordTbl readClass t s.lastR sub.decls
    edges := s.edges ++ qes ++ ces }

/-- The scheduler state after processing a submission sequence in order. -/
def buildSt (ordered : Nat → Bool) (subs : List Sub) : BuildSt :=
  subs.foldl (processSub ordered) ⟨0, [], [], [], []⟩

/-- Modelled from the spec: the Dependency Graph derived from a submission
sequence, as the list of edges (predecessor, successor). -/
def buildGraph (ordered : Nat → Bool) (subs : List Sub) : List (Nat × Nat) :=
  (buildSt ordered subs).edges

/-- Whether a submission declares a write-class access on buffer `b`. -/
def writesOn (sub : Sub) (b : Nat) : Bool :=
  sub.decls.any fun d => d.buf = b && writeClass d.mode

/-- Whether a submission declares any access on buffer `b`. -/
def touches (sub : Sub) (b : Nat) : Bool :=
  sub.decls.any fun d => d.buf = b

/-- The default submission used by positional lookups. -/
def sub0 : Sub := ⟨0, []⟩

/-- The greatest sequence number among submissions declaring a write-class
access on `b` (the spec's "most recent prior declaration" for the write
class, seen by the next submission). -/
def lastWriterIdx (subs : List Sub) (b : Nat) : Option Nat :=
  (List.range subs.length).foldl
    (fun acc i => if writesOn (subs.getD i sub0) b then some i else acc) none

/-- A path of one or more edges in an edge list. -/
inductive GPath (E : List (Nat × Nat)) : Nat → Nat → Prop
  | single {a b : Nat} : (a, b) ∈ E → GPath E a b
  | cons {a b c : Nat} : (a, b) ∈ E → GPath E b c → GPath E a c

/-- Modelled from the spec: the per-task completion state machine
`Pending → Ready → Running → Completed`. -/
inductive TState where
  | pending
  | ready
  | running
  | completed
deriving DecidableEq, Repr

/-- Every predecessor of `j` in the edge list is completed. -/
def allPredsDone (E : List (Nat × Nat)) (ts : List TState) (j : Nat) : Bool :=
  E.all fun e => !(e.2 = j) || (ts.getD e.1 TState.pending = TState.completed)

/-- One dispatch-machine transition: a task becoming ready, starting to run,
or completing. -/
inductive SchedStep where
  | toReady (i : Nat)
  | toRunning (i : Nat)
  | toCompleted (i : Nat)
deriving DecidableEq, Repr

/-- Modelled from the spec: the dispatch state machine — a task becomes
`Ready` only when every task it depends on is `Completed`; `Running` only
from `Ready`; `Completed` only from `Running`.  Guards that fail make the
step invalid. -/
def schedApply (E : List (Nat × Nat)) (ts : List TState) :
    SchedStep → Option (List TState)
  | SchedStep.toReady i =>
      if i < ts.length ∧ ts.getD i TState.pending = TState.pending ∧
         allPredsDone E ts i then
        some (ts.set i TState.ready)
      else none
  | SchedStep.toRunning i =>
      if ts.getD i TState.pending = TState.ready then
        some (ts.set i TState.running)
      else none
  | SchedStep.toCompleted i =>
      if ts.getD i TState.pending = TState.running then
        some (ts.set i TState.completed)
      else none

/-- Run a list of dispatch-machine steps, failing if any guard fails. -/
def schedRun (E : List (Nat × Nat)) :
    List SchedStep → List TState → Option (List TState)
  | [], ts => some ts
  | st :: rest, ts =>
      match schedApply E ts st with
      | some ts2 => schedRun E rest ts2
      | none => none

/-- Modelled from the spec: the policy triple a buffer is created with. -/
structure BufferConfig where
  storage : StoragePolicy
  release : ReleasePolicy
  writeback : Bool
deriving DecidableEq, Repr

/-- Modelled from the spec: the observable state of one buffer's lifecycle —
the caller's external array, the buffer's current contents, the states of
the tasks referencing the buffer, and the progress of the release
operation. -/
structure LifeState where
  caller : List Int
  dev : List Int
  tstates : List TState
  releaseCalled : Bool
  wbDone : Bool
  deallocated : Bool
  releaseReturned : Bool
  waitReturned : Bool
deriving DecidableEq, Repr

/-- All referencing tasks have completed. -/
def allCompleted (ts : List TState) : Bool :=
  ts.all fun t => t = TState.completed

/-- One buffer-lifecycle transition: a task starting or finishing, the
caller invoking release, the runtime performing write-back then
deallocation, release returning to the caller, and the caller's separate
wait on the buffer's completion token. -/
inductive LifeStep where
  | startTask (i : Nat)
  | finishTask (i : Nat)
  | callRelease
  | doWriteback
  | doDealloc
  | returnRelease
  | waitToken
deriving DecidableEq, Repr

/-- Modelled from the spec: the buffer-lifecycle state machine.  Tasks
mutate only the buffer's contents; write-back may happen only after every
referencing task has completed, deallocation only after write-back, and a
synchronous release returns only after deallocation, while an asynchronous
release may return at any time after being called.  The completion-token
wait resolves only once the deferred release has fully run. -/
def lifeApply (cfg : BufferConfig) (bodies : List (List Int → List Int))
    (s : LifeState) : LifeStep → Option LifeState
  | LifeStep.startTask i =>
      if s.tstates.getD i TState.completed = TState.pending ∧ s.deallocated = false then
        some { s with tstates := s.tstates.set i TState.running }
      else none
  | LifeStep.finishTask i =>
      if s.tstates.getD i TState.completed = TState.running then
        some { s with tstates := s.tstates.set i TState.completed
                      dev := (bodies.getD i id) s.dev }
      else none
  | LifeStep.callRelease =>
      if s.releaseCalled = false then some { s with releaseCalled := true } else none
  | LifeStep.doWriteback =>
      if s.releaseCalled = true ∧ allCompleted s.tstates = true ∧
         s.wbDone = false ∧ s.deallocated = false then
        some { s with caller := if cfg.writeback then s.dev else s.caller
                      wbDone := true }
      else none
  | LifeStep.doDealloc =>
      if s.wbDone = true ∧ s.deallocated = false then
        some { s with deallocated := true }
      else none
  | LifeStep.returnRelease =>
      if s.releaseCalled = true ∧ s.releaseReturned = false ∧
         (cfg.release = ReleasePolicy.synchronous → s.deallocated = true) then
        some { s with releaseReturned := true }
      else none
  | LifeStep.waitToken =>
      if s.deallocated = true then some { s with waitReturned := true } else none

/-- Run a list of buffer-lifecycle steps, failing if any guard fails. -/
def lifeRun (cfg : BufferConfig) (bodies : List (List Int → List Int)) :
    List LifeStep → LifeState → Option LifeState
  | [], s => some s
  | st :: rest, s =>
      match lifeApply cfg bodies s st with
      | some s2 => lifeRun cfg bodies rest s2
      | none => none

/-- The initial lifecycle state: a buffer over external memory `c0`, whose
initial contents are the caller's data, with `n` pending tasks. -/
def lifeInit (c0 : List Int) (n : Nat) : LifeState :=
  ⟨c0, c0, List.replicate n TState.pending, false, false, false, false, false⟩

/-- Per-task progress of a compare-exchange retry loop: the locally held
expected value, whether it has been loaded, and whether the task's single
`fetch_add` has landed. -/
structure CasTask where
  expected : Int
  loaded : Bool
  done : Bool
deriving DecidableEq, Repr

/-- The shared counter together with the local state of every concurrent
task running the retry loop. -/
structure CasState where
  counter : Int
  tasks : List CasTask
deriving DecidableEq, Repr

/-- One interleaved transition of the retry loops: task `i` loads the
counter, or attempts `compare_exchange_weak` and succeeds, or attempts it
and fails (possibly spuriously), updating its expected value and
retrying. -/
inductive CasStep where
  | load (i : Nat)
  | casOk (i : Nat)
  | casFail (i : Nat)
deriving DecidableEq, Repr

/-- Modelled from the spec: the `compare_exchange_weak` retry loop
implementing `fetch_add` semantics, run by `N` concurrent tasks against one
shared counter, as an interleaved transition system.  A failing CAS —
genuine or spurious — leaves the counter unchanged and updates the task's
expected value to the current counter, after which the task retries. -/
def casApply (inc : Int) (s : CasState) : CasStep → Option CasState
  | CasStep.load i =>
      match s.tasks.get? i with
      | some t =>
          if t.done = false then
            some ⟨s.counter, s.tasks.set i { t with expected := s.counter, loaded := true }⟩
          else none
      | none => none
  | CasStep.casOk i =>
      match s.tasks.get? i with
      | some t =>
          if t.loaded = true ∧ t.done = false then
            let r := compare_exchange_weak false s.counter t.expected (t.expected + inc)
            if r.success = true then
              some ⟨r.stored, s.tasks.set i { t with done := true }⟩
            else none
          else none
      | none => none
  | CasStep.casFail i =>
      match s.tasks.get? i with
      | some t =>
          if t.loaded = true ∧ t.done = false then
            let r := compare_exchange_weak true s.counter t.expected (t.expected + inc)
            some ⟨r.stored, s.tasks.set i { t with expected := r.expected }⟩
          else none
      | none => none

/-- Run a list of interleaved retry-loop steps, failing if any guard
fails. -/
def casRun (inc : Int) : List CasStep → CasState → Option CasState
  | [], s => some s
  | st :: rest, s =>
      match casApply inc s st with
      | some s2 => casRun inc rest s2
      | none => none

/-- The initial CAS state: counter zero, `N` tasks yet to run. -/
def casInit (N : Nat) : CasState :=
  ⟨0, List.replicate N ⟨0, false, false⟩⟩

/-- Number of tasks whose increment has landed. -/
def countDone (s : CasState) : Nat :=
  (s.tasks.filter fun t => t.done).length

/-- A submission declaring a single write on buffer 0. -/
def wTask : Sub := ⟨0, [⟨0, Mode.write⟩]⟩

/-- A submission declaring a single read on buffer 0. -/
def rTask : Sub := ⟨0, [⟨0, Mode.read⟩]⟩

/-- Three consecutive writers of the same buffer on one unordered queue. -/
def threeWrites : List Sub := [wTask, wTask, wTask]

/-- All queues unordered. -/
def unorderedQ : Nat → Bool := fun _ => false

/-- A task body that writes the value 7 to every element of the buffer. -/
def sevenBody : List Int → List Int := fun l => l.map fun _ => 7

/-- External storage, synchronous release, write-back enabled
(make_sync_writeback_view). -/
def syncWbCfg : BufferConfig :=
  ⟨StoragePolicy.external, ReleasePolicy.synchronous, true⟩

/-- External storage, asynchronous release, write-back enabled
(make_async_writeback_view). -/
def asyncWbCfg : BufferConfig :=
  ⟨StoragePolicy.external, ReleasePolicy.asynchronous, true⟩

/-- External storage with write-back disabled (make_sync_view /
make_async_view), under either release policy. -/
def viewCfg (rp : ReleasePolicy) : BufferConfig :=
  ⟨StoragePolicy.external, rp, false⟩

/-- A run of the synchronous write-back scenario: the caller releases while
the task is still pending, the task runs to completion, then write-back,
deallocation and the return of `release` follow in order. -/
def c1Trace : List LifeStep :=
  [LifeStep.callRelease, LifeStep.startTask 0, LifeStep.finishTask 0,
   LifeStep.doWriteback, LifeStep.doDealloc, LifeStep.returnRelease]

/-- A schedule in which each task in turn loads the counter and succeeds
with its compare-exchange. -/
def casTrace (N : Nat) : List CasStep :=
  (List.range N).flatMap fun i => [CasStep.load i, CasStep.casOk i]

/-- The identity enumeration is a topological order of the edge list: every
edge goes from a smaller to a larger sequence number, so a topological sort
succeeds by emitting tasks in submission order. -/
def topoOrdered (E : List (Nat × Nat)) : Bool :=
  E.all fun e => e.1 < e.2

/-- C5: Buffer creation fails with `InvalidPolicy` exactly when the
write-back flag is set without external storage, or when the external
pointer is absent while the storage policy is external; of the 2×2×2 = 8
policy combinations, exactly the 6 of the guide's factory-method table are
constructible. -/
theorem C5_create_invalid_policy :
    (∀ (extent : Nat) (sp : StoragePolicy) (rp : ReleasePolicy) (wb : Bool)
        (ptr : Option Nat),
      create extent sp rp wb ptr = Except.error BufferError.invalidPolicy ↔
        ((wb = true ∧ sp ≠ StoragePolicy.external) ∨
         (sp = StoragePolicy.external ∧ ptr = none))) ∧
    allPolicyTriples.length = 8 ∧
    (allPolicyTriples.filter constructible).length = 6 ∧
    (∀ p, constructible p = true ↔ p ∈ factoryTable) := by
  refine ⟨?_, by decide, by decide, ?_⟩
  · intro extent sp rp wb ptr
    cases sp <;> cases wb <;> cases ptr <;> cases rp <;> simp [create]
  · intro p
    obtain ⟨sp, rp, wb⟩ := p
    cases sp <;> cases rp <;> cases wb <;> decide

/-- C5 witness: with write-back set on internal storage, creation fails
with `InvalidPolicy`. -/
theorem C5_create_invalid_policy_witness :
    create 1 StoragePolicy.internal ReleasePolicy.synchronous true none =
      Except.error BufferError.invalidPolicy :=
  (C5_create_invalid_policy.1 1 StoragePolicy.internal
      ReleasePolicy.synchronous true none).mpr (Or.inl (by decide))

/-- C6: `compare_exchange_strong` fails exactly when the stored value
differs from `expected`, updating `expected` to the current stored value on
failure and storing `desired` on success, whereas `compare_exchange_weak`
is permitted to fail (leaving the value unchanged and updating `expected`)
even when the stored value equals `expected`, which is why only a retry
loop is a correct use of the weak form. -/
theorem C6_compare_exchange_semantics :
    (∀ stored expected desired : Int,
      (compare_exchange_strong stored expected desired).success = false ↔
        stored ≠ expected) ∧
    (∀ stored expected desired : Int, stored ≠ expected →
      (compare_exchange_strong stored expected desired).expected = stored ∧
      (compare_exchange_strong stored expected desired).stored = stored) ∧
    (∀ stored expected desired : Int, stored = expected →
      (compare_exchange_strong stored expected desired).success = true ∧
      (compare_exchange_strong stored expected desired).stored = desired) ∧
    (∀ stored desired : Int,
      (compare_exchange_weak true stored stored desired).success = false ∧
      (compare_exchange_weak true stored stored desired).stored = stored ∧
      (compare_exchange_weak true stored stored desired).expected = stored) := by
  refine ⟨?_, ?_, ?_, ?_⟩
  · intro s e d
    by_cases h : s = e <;> simp [compare_exchange_strong, h]
  · intro s e d h
    simp [compare_exchange_strong, h]
  · intro s e d h
    simp [compare_exchange_strong, h]
  · intro s d
    simp [compare_exchange_weak]

/-- C6 witness: at stored = 5, expected = 3, the strong form fails and
updates expected to 5; at stored = expected = 5 the weak form may still
fail. -/
theorem C6_compare_exchange_semantics_witness :
    ((compare_exchange_strong 5 3 9).success = false ↔ (5 : Int) ≠ 3) ∧
    (compare_exchange_strong 5 3 9).expected = 5 ∧
    (compare_exchange_weak true 5 5 9).success = false :=
  ⟨C6_compare_exchange_semantics.1 5 3 9,
   (C6_compare_exchange_semantics.2.1 5 3 9 (by decide)).1,
   (C6_compare_exchange_semantics.2.2.2 5 9).1⟩

/-- C7: the memory orders form a strength lattice: `moLE` is a partial
order with meets and joins in which `relaxed` is strictly weakest,
`acquire` and `release` are incomparable and both strictly below
`acq_rel`, and `acq_rel` is strictly below `seq_cst`. -/
theorem C7_memory_order_lattice :
    (∀ a : MemoryOrder, moLE a a = true) ∧
    (∀ a b : MemoryOrder, moLE a b = true → moLE b a = true → a = b) ∧
    (∀ a b c : MemoryOrder,
      moLE a b = true → moLE b c = true → moLE a c = true) ∧
    (∀ a b : MemoryOrder, moLE (moMeet a b) a = true ∧
      moLE (moMeet a b) b = true ∧
      ∀ c, moLE c a = true → moLE c b = true → moLE c (moMeet a b) = true) ∧
    (∀ a b : MemoryOrder, moLE a (moJoin a b) = true ∧
      moLE b (moJoin a b) = true ∧
      ∀ c, moLE a c = true → moLE b c = true → moLE (moJoin a b) c = true) ∧
    moLT MemoryOrder.relaxed MemoryOrder.acquire = true ∧
    moLT MemoryOrder.relaxed MemoryOrder.release = true ∧
    moLE MemoryOrder.acquire MemoryOrder.release = false ∧
    moLE MemoryOrder.release MemoryOrder.acquire = false ∧
    moLT MemoryOrder.acquire MemoryOrder.acq_rel = true ∧
    moLT MemoryOrder.release MemoryOrder.acq_rel = true ∧
    moLT MemoryOrder.acq_rel MemoryOrder.seq_cst = true ∧
    (∀ a : MemoryOrder, a ≠ MemoryOrder.relaxed →
      moLT MemoryOrder.relaxed a = true) := by
  decide

/-- C7 witness: the lattice facts instantiated — relaxed is strictly below
acquire, and acq_rel is the join of acquire and release. -/
theorem C7_memory_order_lattice_witness :
    moLT MemoryOrder.relaxed MemoryOrder.acquire = true ∧
    moLE MemoryOrder.acquire
      (moJoin MemoryOrder.acquire MemoryOrder.release) = true :=
  ⟨C7_memory_order_lattice.2.2.2.2.2.1,
   (C7_memory_order_lattice.2.2.2.2.1 MemoryOrder.acquire
     MemoryOrder.release).1⟩

theorem getD_set_self {α : Type} (l : List α) (i : Nat) (v d : α)
    (h : i < l.length) : (l.set i v).getD i d = v := by
  induction l generalizing i with
  | nil => simp at h
  | cons a t ih =>
      cases i with
      | zero => rfl
      | succ j => exact ih j (by simpa using h)

theorem getD_set_ne {α : Type} (l : List α) (i j : Nat) (v d : α)
    (h : i ≠ j) : (l.set i v).getD j d = l.getD j d := by
  induction l generalizing i j with
  | nil => rfl
  | cons a t ih =>
      cases i with
      | zero =>
          cases j with
          | zero => exact absurd rfl h
          | succ k => rfl
      | succ i2 =>
          cases j with
          | zero => rfl
          | succ k => exact ih i2 k (by omega)

theorem all_getD {α : Type} (l : List α) (p : α → Bool) (i : Nat) (d : α)
    (h : l.all p = true) (hi : i < l.length) : p (l.getD i d) = true := by
  induction l generalizing i with
  | nil => simp at hi
  | cons a t ih =>
      simp only [List.all_cons, Bool.and_eq_true] at h
      cases i with
      | zero => exact h.1
      | succ j => exact ih j h.2 (by simpa using hi)

theorem getD_append_left {α : Type} (l l2 : List α) (i : Nat) (d : α)
    (h : i < l.length) : (l ++ l2).getD i d = l.getD i d := by
  induction l generalizing i with
  | nil => simp at h
  | cons a t ih =>
      cases i with
      | zero => rfl
      | succ j => exact ih j (by simpa using h)

theorem getD_append_len {α : Type} (l l2 : List α) (d : α) :
    (l ++ l2).getD l.length d = l2.getD 0 d := by
  induction l with
  | nil => rfl
  | cons a t ih => simpa using ih

theorem getD_take {α : Type} (l : List α) (i j : Nat) (d : α)
    (h : i < j) : (l.take j).getD i d = l.getD i d := by
  induction l generalizing i j with
  | nil => simp
  | cons a t ih =>
      cases j with
      | zero => omega
      | succ j2 =>
          cases i with
          | zero => rfl
          | succ i2 => exact ih i2 j2 (by omega)

theorem take_succ_getD {α : Type} (l : List α) (j : Nat) (d : α)
    (h : j < l.length) : l.take (j + 1) = l.take j ++ [l.getD j d] := by
  induction l generalizing j with
  | nil => simp at h
  | cons a t ih =>
      cases j with
      | zero => rfl
      | succ j2 =>
          show a :: t.take (j2 + 1) = a :: (t.take j2 ++ [t.getD j2 d])
          rw [ih j2 (by simpa using h)]

theorem getD_default_of_le {α : Type} (l : List α) (i : Nat) (d : α)
    (h : l.length ≤ i) : l.getD i d = d := by
  induction l generalizing i with
  | nil => rfl
  | cons a t ih =>
      cases i with
      | zero => simp at h
      | succ j => exact ih j (by simpa using h)

theorem lt_length_of_getD_ne {α : Type} (l : List α) (i : Nat) (d : α)
    (h : l.getD i d ≠ d) : i < l.length := by
  by_contra h2
  exact h (getD_default_of_le l i d (by omega))

theorem recordTbl_entry (p : Mode → Bool) (t : Nat)
    (tbl : List (Nat × (Nat × Mode))) (ds : List Decl) (b r : Nat) (m : Mode)
    (h : alookup (recordTbl p t tbl ds) b = some (r, m)) :
    alookup tbl b = some (r, m) ∨
      (r = t ∧ p m = true ∧ Decl.mk b m ∈ ds) := by
  induction ds generalizing tbl with
  | nil => exact Or.inl h
  | cons d rest ih =>
      have h2 : recordTbl p t tbl (d :: rest) =
          recordTbl p t (if p d.mode then (d.buf, (t, d.mode)) :: tbl else tbl) rest := rfl
      rw [h2] at h
      rcases ih _ h with h3 | h3
      · by_cases hp : p d.mode
        · rw [if_pos hp, alookup] at h3
          by_cases hb : d.buf = b
          · rw [if_pos hb] at h3
            have h5 := Option.some.inj h3
            have hr : t = r := congrArg Prod.fst h5
            have hm : d.mode = m := congrArg Prod.snd h5
            subst hr
            subst hm
            subst hb
            exact Or.inr ⟨rfl, hp, List.mem_cons_self d rest⟩
          · rw [if_neg hb] at h3
            exact Or.inl h3
        · rw [if_neg hp] at h3
          exact Or.inl h3
      · exact Or.inr ⟨h3.1, h3.2.1, List.mem_cons_of_mem d h3.2.2⟩

theorem recordTbl_not_mem (p : Mode → Bool) (t : Nat)
    (tbl : List (Nat × (Nat × Mode))) (ds : List Decl) (b : Nat)
    (h : ds.any (fun d => d.buf = b && p d.mode) = false) :
    alookup (recordTbl p t tbl ds) b = alookup tbl b := by
  induction ds generalizing tbl with
  | nil => rfl
  | cons d rest ih =>
      rw [List.any_cons] at h
      rcases Bool.or_eq_false_iff.mp h with ⟨h1, hrest⟩
      have h2 : recordTbl p t tbl (d :: rest) =
          recordTbl p t (if p d.mode then (d.buf, (t, d.mode)) :: tbl else tbl)
            rest := rfl
      rw [h2, ih _ hrest]
      by_cases hp : p d.mode
      · have hb : ¬ d.buf = b := by
          intro hb2
          rw [hb2] at h1
          simp [hp] at h1
        rw [if_pos hp, alookup, if_neg hb]
      · rw [if_neg hp]

theorem recordTbl_mem (p : Mode → Bool) (t : Nat)
    (tbl : List (Nat × (Nat × Mode))) (ds : List Decl) (b : Nat)
    (h : ds.any (fun d => d.buf = b && p d.mode) = true) :
    ∃ m, p m = true ∧ alookup (recordTbl p t tbl ds) b = some (t, m) := by
  induction ds generalizing tbl with
  | nil => simp at h
  | cons d rest ih =>
      have h2 : recordTbl p t tbl (d :: rest) =
          recordTbl p t (if p d.mode then (d.buf, (t, d.mode)) :: tbl else tbl)
            rest := rfl
      by_cases hrest : rest.any (fun d => d.buf = b && p d.mode) = true
      · obtain ⟨m, hm, hl⟩ := ih _ hrest
        exact ⟨m, hm, by rw [h2]; exact hl⟩
      · have hrest2 : rest.any (fun d => d.buf = b && p d.mode) = false := by
          simpa using hrest
        rw [List.any_cons] at h
        have h1 : (d.buf = b && p d.mode) = true := by
          rcases Bool.or_eq_true_iff.mp h with h3 | h3
          · exact h3
          · exact absurd h3 hrest
        have hb : d.buf = b := of_decide_eq_true (Bool.and_eq_true _ _ |>.mp h1).1
        have hp : p d.mode = true := (Bool.and_eq_true _ _ |>.mp h1).2
        refine ⟨d.mode, hp, ?_⟩
        rw [h2, recordTbl_not_mem p t _ rest b hrest2, if_pos hp]
        simp [alookup, hb]

theorem lastWriterIdx_append (l : List Sub) (x : Sub) (b : Nat) :
    lastWriterIdx (l ++ [x]) b =
      if writesOn x b then some l.length else lastWriterIdx l b := by
  have hcong : (List.range l.length).foldl
      (fun acc i => if writesOn ((l ++ [x]).getD i sub0) b then some i else acc)
        none = lastWriterIdx l b := by
    unfold lastWriterIdx
    apply List.foldl_ext
    intro acc i hi
    rw [getD_append_left l [x] i sub0 (List.mem_range.mp hi)]
  have hlen : (l ++ [x]).getD l.length sub0 = x := by
    rw [getD_append_len]
    rfl
  unfold lastWriterIdx
  simp only [List.length_append, List.length_singleton]
  rw [List.range_succ, List.foldl_append, List.foldl_cons, List.foldl_nil,
    hcong, hlen]
  rfl

theorem lastWriterIdx_sound (l : List Sub) (b w : Nat)
    (h : lastWriterIdx l b = some w) :
    w < l.length ∧ writesOn (l.getD w sub0) b = true := by
  induction l using List.reverseRecOn with
  | nil => simp [lastWriterIdx] at h
  | append_singleton l x ih =>
      rw [lastWriterIdx_append] at h
      by_cases hw : writesOn x b
      · rw [if_pos hw] at h
        have hww : w = l.length := (Option.some.inj h).symm
        subst hww
        refine ⟨by simp, ?_⟩
        rw [getD_append_len]
        exact hw
      · rw [if_neg hw] at h
        obtain ⟨h1, h2⟩ := ih h
        refine ⟨by simp; omega, ?_⟩
        rw [getD_append_left l [x] w sub0 h1]
        exact h2

theorem lastWriterIdx_ge (l : List Sub) (b i : Nat) (hi : i < l.length)
    (h : writesOn (l.getD i sub0) b = true) :
    ∃ w, lastWriterIdx l b = some w ∧ i ≤ w := by
  induction l using List.reverseRecOn with
  | nil => simp at hi
  | append_singleton l x ih =>
      rw [lastWriterIdx_append]
      by_cases hw : writesOn x b
      · refine ⟨l.length, by rw [if_pos hw], ?_⟩
        simp at hi
        omega
      · rw [if_neg hw]
        have hi2 : i < l.length := by
          rcases Nat.lt_or_ge i l.length with h2 | h2
          · exact h2
          · exfalso
            have hi3 : i = l.length := by
              simp at hi
              omega
            rw [hi3, getD_append_len] at h
            exact absurd h (by simpa using hw)
        rw [getD_append_left l [x] i sub0 hi2] at h
        exact ih hi2 h

theorem processSub_idx (o : Nat → Bool) (s : BuildSt) (x : Sub) :
    (processSub o s x).idx = s.idx + 1 := rfl

theorem processSub_qlast (o : Nat → Bool) (s : BuildSt) (x : Sub) :
    (processSub o s x).qlast = (x.queue, s.idx) :: s.qlast := rfl

theorem processSub_lastW (o : Nat → Bool) (s : BuildSt) (x : Sub) :
    (processSub o s x).lastW = recordTbl writeClass s.idx s.lastW x.decls := rfl

theorem processSub_lastR (o : Nat → Bool) (s : BuildSt) (x : Sub) :
    (processSub o s x).lastR = recordTbl readClass s.idx s.lastR x.decls := rfl

theorem processSub_edges (o : Nat → Bool) (s : BuildSt) (x : Sub) :
    (processSub o s x).edges = s.edges ++
      (if o x.queue then
        match alookup s.qlast x.queue with
        | some p => [(p, s.idx)]
        | none => []
      else []) ++ x.decls.flatMap (declEdges s.lastW s.lastR s.idx) := rfl

theorem buildSt_append (o : Nat → Bool) (l : List Sub) (x : Sub) :
    buildSt o (l ++ [x]) = processSub o (buildSt o l) x := by
  unfold buildSt
  rw [List.foldl_append, List.foldl_cons, List.foldl_nil]

theorem buildSt_idx (o : Nat → Bool) (l : List Sub) :
    (buildSt o l).idx = l.length := by
  induction l using List.reverseRecOn with
  | nil => rfl
  | append_singleton l x ih =>
      rw [buildSt_append, processSub_idx, ih]
      simp

theorem buildSt_qlast_sound (o : Nat → Bool) (l : List Sub) :
    ∀ q p2, alookup (buildSt o l).qlast q = some p2 → p2 < l.length := by
  induction l using List.reverseRecOn with
  | nil =>
      intro q p2 h
      simp [buildSt, alookup] at h
  | append_singleton l x ih =>
      intro q p2 h
      rw [buildSt_append, processSub_qlast, alookup] at h
      by_cases hq : x.queue = q
      · rw [if_pos hq] at h
        have h2 : (buildSt o l).idx = p2 := Option.some.inj h
        rw [buildSt_idx] at h2
        simp
        omega
      · rw [if_neg hq] at h
        have := ih q p2 h
        simp
        omega

theorem declEdges_mem (lw lr : List (Nat × (Nat × Mode))) (t : Nat)
    (d : Decl) (e : Nat × Nat) (h : e ∈ declEdges lw lr t d) :
    (∃ w wm, alookup lw d.buf = some (w, wm) ∧ conflictM wm d.mode = true ∧
      e = (w, t)) ∨
    (∃ r rm, alookup lr d.buf = some (r, rm) ∧ conflictM rm d.mode = true ∧
      e = (r, t)) := by
  unfold declEdges at h
  rcases List.mem_append.mp h with h2 | h2
  · left
    cases hW : alookup lw d.buf with
    | none =>
        rw [hW] at h2
        simp at h2
    | some v =>
        obtain ⟨w, wm⟩ := v
        rw [hW] at h2
        by_cases hc : conflictM wm d.mode = true
        · simp [hc] at h2
          exact ⟨w, wm, rfl, hc, by simp [h2]⟩
        · simp [hc] at h2
  · right
    cases hR : alookup lr d.buf with
    | none =>
        rw [hR] at h2
        simp at h2
    | some v =>
        obtain ⟨r, rm⟩ := v
        rw [hR] at h2
        by_cases hc : conflictM rm d.mode = true
        · simp [hc] at h2
          exact ⟨r, rm, rfl, hc, by simp [h2]⟩
        · simp [hc] at h2

theorem buildSt_tbl_sound (o : Nat → Bool) (l : List Sub) :
    (∀ b r m, alookup (buildSt o l).lastW b = some (r, m) →
      r < l.length ∧ writeClass m = true ∧
        Decl.mk b m ∈ (l.getD r sub0).decls) ∧
    (∀ b r m, alookup (buildSt o l).lastR b = some (r, m) →
      r < l.length ∧ readClass m = true ∧
        Decl.mk b m ∈ (l.getD r sub0).decls) := by
  induction l using List.reverseRecOn with
  | nil =>
      constructor <;> (intro b r m h; simp [buildSt, alookup] at h)
  | append_singleton l x ih =>
      constructor
      · intro b r m h
        rw [buildSt_append, processSub_lastW] at h
        rcases recordTbl_entry _ _ _ _ _ _ _ h with h2 | h2
        · obtain ⟨h3, h4, h5⟩ := ih.1 b r m h2
          refine ⟨by simp; omega, h4, ?_⟩
          rw [getD_append_left l [x] r sub0 h3]
          exact h5
        · obtain ⟨hr, hp, hmem⟩ := h2
          rw [buildSt_idx] at hr
          subst hr
          refine ⟨by simp, hp, ?_⟩
          rw [getD_append_len]
          exact hmem
      · intro b r m h
        rw [buildSt_append, processSub_lastR] at h
        rcases recordTbl_entry _ _ _ _ _ _ _ h with h2 | h2
        · obtain ⟨h3, h4, h5⟩ := ih.2 b r m h2
          refine ⟨by simp; omega, h4, ?_⟩
          rw [getD_append_left l [x] r sub0 h3]
          exact h5
        · obtain ⟨hr, hp, hmem⟩ := h2
          rw [buildSt_idx] at hr
          subst hr
          refine ⟨by simp, hp, ?_⟩
          rw [getD_append_len]
          exact hmem

theorem buildSt_lastW_fst (o : Nat → Bool) (l : List Sub) :
    ∀ b, (alookup (buildSt o l).lastW b).map Prod.fst = lastWriterIdx l b := by
  induction l using List.reverseRecOn with
  | nil => intro b; rfl
  | append_singleton l x ih =>
      intro b
      rw [buildSt_append, processSub_lastW, lastWriterIdx_append]
      by_cases hw : writesOn x b = true
      · obtain ⟨m, hm, hl⟩ :=
          recordTbl_mem writeClass (buildSt o l).idx (buildSt o l).lastW
            x.decls b hw
        rw [hl, if_pos hw, buildSt_idx]
        rfl
      · rw [recordTbl_not_mem writeClass (buildSt o l).idx (buildSt o l).lastW
          x.decls b (Bool.of_not_eq_true hw), if_neg hw]
        exact ih b

theorem edges_mono_foldl (o : Nat → Bool) (l2 : List Sub) :
    ∀ (s : BuildSt) (e : Nat × Nat), e ∈ s.edges →
      e ∈ (l2.foldl (processSub o) s).edges := by
  induction l2 with
  | nil => intro s e he; exact he
  | cons y rest ih =>
      intro s e he
      apply ih
      rw [processSub_edges]
      exact List.mem_append.mpr (Or.inl (List.mem_append.mpr (Or.inl he)))

theorem edges_mono (o : Nat → Bool) (l l2 : List Sub) (e : Nat × Nat)
    (he : e ∈ buildGraph o l) : e ∈ buildGraph o (l ++ l2) := by
  rw [buildGraph]
  unfold buildSt
  rw [List.foldl_append]
  exact edges_mono_foldl o l2 _ e he

theorem direct_edge (o : Nat → Bool) (l : List Sub) (x : Sub) (d : Decl)
    (hd : d ∈ x.decls) (w : Nat) (wm : Mode)
    (hW : alookup (buildSt o l).lastW d.buf = some (w, wm))
    (hc : conflictM wm d.mode = true) :
    (w, l.length) ∈ buildGraph o (l ++ [x]) := by
  rw [buildGraph, buildSt_append, processSub_edges]
  apply List.mem_append.mpr
  right
  apply List.mem_flatMap.mpr
  refine ⟨d, hd, ?_⟩
  unfold declEdges
  apply List.mem_append.mpr
  left
  rw [hW]
  simp [hc, buildSt_idx]

theorem buildGraph_edges_bound (o : Nat → Bool) (l : List Sub) :
    ∀ e ∈ buildGraph o l, e.1 < e.2 ∧ e.2 < l.length := by
  induction l using List.reverseRecOn with
  | nil => intro e he; simp [buildGraph, buildSt] at he
  | append_singleton l x ih =>
      intro e he
      rw [buildGraph, buildSt_append, processSub_edges] at he
      rcases List.mem_append.mp he with he2 | he2
      · rcases List.mem_append.mp he2 with he3 | he3
        · obtain ⟨h1, h2⟩ := ih e he3
          refine ⟨h1, ?_⟩
          simp
          omega
        · by_cases ho : o x.queue = true
          · rw [if_pos ho] at he3
            cases hq : alookup (buildSt o l).qlast x.queue with
            | none =>
                rw [hq] at he3
                simp at he3
            | some p =>
                rw [hq] at he3
                simp at he3
                have hp := buildSt_qlast_sound o l x.queue p hq
                rw [he3, buildSt_idx]
                refine ⟨by simpa using hp, by simp⟩
          · rw [if_neg ho] at he3
            simp at he3
      · rcases List.mem_flatMap.mp he2 with ⟨d, hd, hde⟩
        rcases declEdges_mem _ _ _ _ _ hde with
          ⟨w, wm, hW, hc, hE⟩ | ⟨r, rm, hR, hc, hE⟩
        · have hs := (buildSt_tbl_sound o l).1 d.buf w wm hW
          rw [hE, buildSt_idx]
          exact ⟨by simpa using hs.1, by simp⟩
        · have hs := (buildSt_tbl_sound o l).2 d.buf r rm hR
          rw [hE, buildSt_idx]
          exact ⟨by simpa using hs.1, by simp⟩

theorem buildGraph_edge_char (o : Nat → Bool) (l : List Sub) :
    ∀ e ∈ buildGraph o l,
      o ((l.getD e.2 sub0).queue) = true ∨
      (∃ b, writesOn (l.getD e.1 sub0) b = true) ∨
      (∃ d ∈ (l.getD e.2 sub0).decls, writeClass d.mode = true) := by
  induction l using List.reverseRecOn with
  | nil => intro e he; simp [buildGraph, buildSt] at he
  | append_singleton l x ih =>
      intro e he
      rw [buildGraph, buildSt_append, processSub_edges] at he
      rcases List.mem_append.mp he with he2 | he2
      · rcases List.mem_append.mp he2 with he3 | he3
        · have hbl := buildGraph_edges_bound o l e he3
          have h1 : (l ++ [x]).getD e.1 sub0 = l.getD e.1 sub0 :=
            getD_append_left l [x] e.1 sub0 (by omega)
          have h2 : (l ++ [x]).getD e.2 sub0 = l.getD e.2 sub0 :=
            getD_append_left l [x] e.2 sub0 hbl.2
          rw [h1, h2]
          exact ih e he3
        · by_cases ho : o x.queue = true
          · rw [if_pos ho] at he3
            cases hq : alookup (buildSt o l).qlast x.queue with
            | none =>
                rw [hq] at he3
                simp at he3
            | some p =>
                rw [hq] at he3
                simp at he3
                left
                have he4 : e.2 = l.length := by rw [he3, buildSt_idx]
                rw [he4, getD_append_len]
                exact ho
          · rw [if_neg ho] at he3
            simp at he3
      · rcases List.mem_flatMap.mp he2 with ⟨d, hd, hde⟩
        rcases declEdges_mem _ _ _ _ _ hde with
          ⟨w, wm, hW, hc, hE⟩ | ⟨r, rm, hR, hc, hE⟩
        · obtain ⟨hwlt, hwc, hmem⟩ := (buildSt_tbl_sound o l).1 d.buf w wm hW
          right; left
          refine ⟨d.buf, ?_⟩
          have h1 : e.1 = w := by rw [hE]
          rw [h1, getD_append_left l [x] w sub0 hwlt]
          apply List.any_eq_true.mpr
          exact ⟨Decl.mk d.buf wm, hmem, by simp [hwc]⟩
        · obtain ⟨hrlt, hrc, hmem⟩ := (buildSt_tbl_sound o l).2 d.buf r rm hR
          by_cases hdm : d.mode = Mode.read
          · right; left
            refine ⟨d.buf, ?_⟩
            have h1 : e.1 = r := by rw [hE]
            rw [h1, getD_append_left l [x] r sub0 hrlt]
            have hrm : writeClass rm = true := by
              rw [hdm] at hc
              cases rm with
              | read => exact absurd hc (by simp [conflictM])
              | write => exact absurd hrc (by simp [readClass])
              | readWrite => rfl
            apply List.any_eq_true.mpr
            exact ⟨Decl.mk d.buf rm, hmem, by simp [hrm]⟩
          · right; right
            have h2 : e.2 = l.length := by rw [hE, buildSt_idx]
            rw [h2, getD_append_len]
            refine ⟨d, hd, ?_⟩
            cases hx : d.mode with
            | read => exact absurd hx hdm
            | write => rfl
            | readWrite => rfl

theorem GPath_trans_edge (E : List (Nat × Nat)) (a b c : Nat)
    (h : GPath E a b) (he : (b, c) ∈ E) : GPath E a c := by
  revert he
  induction h with
  | single h1 => intro he; exact GPath.cons h1 (GPath.single he)
  | cons h1 p ih => intro he; exact GPath.cons h1 (ih he)

theorem GPath_lt (E : List (Nat × Nat)) (hE : ∀ e ∈ E, e.1 < e.2)
    (a b : Nat) (h : GPath E a b) : a < b := by
  induction h with
  | single h1 => exact hE _ h1
  | cons h1 p ih => exact Nat.lt_trans (hE _ h1) ih

theorem writer_path (o : Nat → Bool) (l : List Sub) (b : Nat) :
    ∀ j, j < l.length → ∀ i, i < j → writesOn (l.getD i sub0) b = true →
      writesOn (l.getD j sub0) b = true → GPath (buildGraph o l) i j := by
  intro j
  induction j using Nat.strong_induction_on with
  | _ j ih =>
      intro hj i hij hwi hwj
      have hlen : (l.take j).length = j := by
        rw [List.length_take]
        exact Nat.min_eq_left (by omega)
      have hwi2 : writesOn ((l.take j).getD i sub0) b = true := by
        rw [getD_take l i j sub0 hij]
        exact hwi
      obtain ⟨w, hlw, hiw⟩ :=
        lastWriterIdx_ge (l.take j) b i (by rw [hlen]; exact hij) hwi2
      obtain ⟨hwlt, hww⟩ := lastWriterIdx_sound (l.take j) b w hlw
      rw [hlen] at hwlt
      have hww2 : writesOn (l.getD w sub0) b = true := by
        rw [getD_take l w j sub0 hwlt] at hww
        exact hww
      obtain ⟨wm, hWm⟩ :
          ∃ wm, alookup (buildSt o (l.take j)).lastW b = some (w, wm) := by
        have h4 := buildSt_lastW_fst o (l.take j) b
        rw [hlw] at h4
        cases halq : alookup (buildSt o (l.take j)).lastW b with
        | none =>
            rw [halq] at h4
            simp at h4
        | some v =>
            obtain ⟨w2, wm⟩ := v
            rw [halq] at h4
            simp at h4
            exact ⟨wm, by rw [h4]⟩
      obtain ⟨d, hd, hp⟩ := List.any_eq_true.mp hwj
      have hdb : d.buf = b := of_decide_eq_true (Bool.and_eq_true _ _ |>.mp hp).1
      have hdw : writeClass d.mode = true := (Bool.and_eq_true _ _ |>.mp hp).2
      have hwmW : writeClass wm = true :=
        ((buildSt_tbl_sound o (l.take j)).1 b w wm hWm).2.1
      have hconf : conflictM wm d.mode = true := by
        cases wm with
        | read => exact absurd hwmW (by simp [writeClass])
        | write => cases d.mode <;> rfl
        | readWrite => cases d.mode <;> rfl
      have hedge : (w, j) ∈ buildGraph o (l.take j ++ [l.getD j sub0]) := by
        have h5 := direct_edge o (l.take j) (l.getD j sub0) d hd w wm
          (by rw [hdb]; exact hWm) hconf
        rw [hlen] at h5
        exact h5
      have hedge2 : (w, j) ∈ buildGraph o l := by
        rw [← take_succ_getD l j sub0 hj] at hedge
        have h6 := edges_mono o (l.take (j + 1)) (l.drop (j + 1)) (w, j) hedge
        rw [List.take_append_drop] at h6
        exact h6
      rcases Nat.eq_or_lt_of_le hiw with hiw2 | hiw2
      · exact GPath.single (hiw2 ▸ hedge2)
      · exact GPath_trans_edge _ i w j
          (ih w hwlt (by omega) i hiw2 hwi hww2) hedge2

theorem getD_replicate {α : Type} (n i : Nat) (a : α) :
    (List.replicate n a).getD i a = a := by
  induction n generalizing i with
  | zero => rfl
  | succ m ih =>
      cases i with
      | zero => rfl
      | succ j => exact ih j

theorem allPredsDone_spec (E : List (Nat × Nat)) (ts : List TState)
    (j a b2 : Nat) (h : allPredsDone E ts j = true) (he : (a, b2) ∈ E)
    (hb : b2 = j) : ts.getD a TState.pending = TState.completed := by
  have h2 := List.all_eq_true.mp h (a, b2) he
  subst hb
  simpa using h2

theorem schedApply_inv (E : List (Nat × Nat)) (ts ts2 : List TState)
    (st : SchedStep) (h : schedApply E ts st = some ts2)
    (hP : ∀ a b2, (a, b2) ∈ E →
      ts.getD b2 TState.pending ≠ TState.pending →
      ts.getD a TState.pending = TState.completed) :
    ∀ a b2, (a, b2) ∈ E →
      ts2.getD b2 TState.pending ≠ TState.pending →
      ts2.getD a TState.pending = TState.completed := by
  intro a b2 he hb
  cases st with
  | toReady i =>
      simp only [schedApply] at h
      split at h
      case isTrue hg =>
        obtain ⟨hlen, hpend, hdone⟩ := hg
        have hts2 : ts2 = ts.set i TState.ready := (Option.some.inj h).symm
        subst hts2
        have hcomp : ts.getD a TState.pending = TState.completed := by
          by_cases hbi : b2 = i
          · exact allPredsDone_spec E ts i a b2 hdone he hbi
          · apply hP a b2 he
            rw [← getD_set_ne ts i b2 TState.ready TState.pending
              (fun hx => hbi hx.symm)]
            exact hb
        by_cases hai : a = i
        · exfalso
          rw [hai] at hcomp
          rw [hcomp] at hpend
          exact absurd hpend (by decide)
        · rw [getD_set_ne ts i a TState.ready TState.pending
            (fun hx => hai hx.symm)]
          exact hcomp
      case isFalse hg => exact absurd h (by simp)
  | toRunning i =>
      simp only [schedApply] at h
      split at h
      case isTrue hg =>
        have hts2 : ts2 = ts.set i TState.running := (Option.some.inj h).symm
        subst hts2
        have hcomp : ts.getD a TState.pending = TState.completed := by
          by_cases hbi : b2 = i
          · apply hP a b2 he
            rw [hbi, hg]
            decide
          · apply hP a b2 he
            rw [← getD_set_ne ts i b2 TState.running TState.pending
              (fun hx => hbi hx.symm)]
            exact hb
        by_cases hai : a = i
        · exfalso
          rw [hai] at hcomp
          rw [hcomp] at hg
          exact absurd hg (by decide)
        · rw [getD_set_ne ts i a TState.running TState.pending
            (fun hx => hai hx.symm)]
          exact hcomp
      case isFalse hg => exact absurd h (by simp)
  | toCompleted i =>
      simp only [schedApply] at h
      split at h
      case isTrue hg =>
        have hts2 : ts2 = ts.set i TState.completed := (Option.some.inj h).symm
        subst hts2
        by_cases hai : a = i
        · rw [hai]
          have hlen : i < ts.length :=
            lt_length_of_getD_ne ts i TState.pending (by rw [hg]; decide)
          exact getD_set_self ts i TState.completed TState.pending hlen
        · have hcomp : ts.getD a TState.pending = TState.completed := by
            by_cases hbi : b2 = i
            · apply hP a b2 he
              rw [hbi, hg]
              decide
            · apply hP a b2 he
              rw [← getD_set_ne ts i b2 TState.completed TState.pending
                (fun hx => hbi hx.symm)]
              exact hb
          rw [getD_set_ne ts i a TState.completed TState.pending
            (fun hx => hai hx.symm)]
          exact hcomp
      case isFalse hg => exact absurd h (by simp)

theorem schedRun_inv (E : List (Nat × Nat)) (steps : List SchedStep) :
    ∀ ts0 ts, schedRun E steps ts0 = some ts →
      (∀ a b2, (a, b2) ∈ E →
        ts0.getD b2 TState.pending ≠ TState.pending →
        ts0.getD a TState.pending = TState.completed) →
      ∀ a b2, (a, b2) ∈ E →
        ts.getD b2 TState.pending ≠ TState.pending →
        ts.getD a TState.pending = TState.completed := by
  induction steps with
  | nil =>
      intro ts0 ts h hP
      rw [schedRun] at h
      have := Option.some.inj h
      subst this
      exact hP
  | cons st rest ih =>
      intro ts0 ts h hP
      rw [schedRun] at h
      cases hap : schedApply E ts0 st with
      | none =>
          rw [hap] at h
          simp at h
      | some ts1 =>
          rw [hap] at h
          simp only at h
          exact ih ts1 ts h (schedApply_inv E ts0 ts1 st hap hP)

theorem path_completed_of_edge_inv (E : List (Nat × Nat)) (ts : List TState)
    (hinv : ∀ a b, (a, b) ∈ E →
      ts.getD b TState.pending ≠ TState.pending →
      ts.getD a TState.pending = TState.completed)
    (a b : Nat) (hp : GPath E a b)
    (hb : ts.getD b TState.pending ≠ TState.pending) :
    ts.getD a TState.pending = TState.completed := by
  revert hb
  induction hp with
  | single h1 => intro hb; exact hinv _ _ h1 hb
  | cons h1 p ih =>
      intro hb
      have h2 := ih hb
      exact hinv _ _ h1 (by rw [h2]; decide)

/-- C3: for any submission sequence and any queue-ordering assignment, the
derived Dependency Graph is acyclic: every edge goes from an earlier to a
later sequence number (so enumerating tasks in submission order is a
successful topological sort), and no task has a path back to itself. -/
theorem C3_graph_acyclic : ∀ (ordered : Nat → Bool) (subs : List Sub),
    topoOrdered (buildGraph ordered subs) = true ∧
    ∀ a, ¬ GPath (buildGraph ordered subs) a a := by
  intro o l
  have hb := buildGraph_edges_bound o l
  constructor
  · apply List.all_eq_true.mpr
    intro e he
    exact decide_eq_true (hb e he).1
  · intro a hpath
    have := GPath_lt _ (fun e he => (hb e he).1) a a hpath
    omega

/-- C3 witness: the graph of the three-writer scenario is topologically
ordered by submission sequence and has no self-path at task 1. -/
theorem C3_graph_acyclic_witness :
    topoOrdered (buildGraph unorderedQ threeWrites) = true ∧
    ¬ GPath (buildGraph unorderedQ threeWrites) 1 1 :=
  ⟨(C3_graph_acyclic unorderedQ threeWrites).1,
   (C3_graph_acyclic unorderedQ threeWrites).2 1⟩

/-- C4: two tasks whose declarations are all read-mode, each owned by an
unordered queue, have no edge between them in either direction, whatever
else is submitted around them. -/
theorem C4_read_read_no_edge (ordered : Nat → Bool) (subs : List Sub)
    (i j : Nat)
    (hri : ∀ d ∈ (subs.getD i sub0).decls, d.mode = Mode.read)
    (hrj : ∀ d ∈ (subs.getD j sub0).decls, d.mode = Mode.read)
    (hqi : ordered ((subs.getD i sub0).queue) = false)
    (hqj : ordered ((subs.getD j sub0).queue) = false) :
    (i, j) ∉ buildGraph ordered subs ∧ (j, i) ∉ buildGraph ordered subs := by
  constructor
  · intro he
    have hc := buildGraph_edge_char ordered subs (i, j) he
    dsimp only at hc
    rcases hc with h1 | ⟨b, h2⟩ | ⟨d, hd, h3⟩
    · rw [hqj] at h1
      cases h1
    · obtain ⟨d, hd, hp⟩ := List.any_eq_true.mp h2
      have hm := hri d hd
      rw [hm] at hp
      simp [writeClass] at hp
    · have hm := hrj d hd
      rw [hm] at h3
      simp [writeClass] at h3
  · intro he
    have hc := buildGraph_edge_char ordered subs (j, i) he
    dsimp only at hc
    rcases hc with h1 | ⟨b, h2⟩ | ⟨d, hd, h3⟩
    · rw [hqi] at h1
      cases h1
    · obtain ⟨d, hd, hp⟩ := List.any_eq_true.mp h2
      have hm := hrj d hd
      rw [hm] at hp
      simp [writeClass] at hp
    · have hm := hri d hd
      rw [hm] at h3
      simp [writeClass] at h3

/-- C4 witness: two read-only tasks on an unordered queue get no edge in
either direction. -/
theorem C4_read_read_no_edge_witness :
    (0, 1) ∉ buildGraph unorderedQ [rTask, rTask] ∧
    (1, 0) ∉ buildGraph unorderedQ [rTask, rTask] :=
  C4_read_read_no_edge unorderedQ [rTask, rTask] 0 1
    (by decide) (by decide) (by decide) (by decide)

/-- C2 counterexample: in a three-writer chain on one buffer, the pair
(task 0, task 2) satisfies the claim's premises — task 0 is submitted
before task 2 and both declare write on the same buffer — yet the
edge-construction adds no direct edge 0 → 2, because task 1's intervening
write superseded task 0's declaration. -/
theorem C2_counterexample :
    (0 : Nat) < 2 ∧ 2 < threeWrites.length ∧
    writesOn (threeWrites.getD 0 sub0) 0 = true ∧
    writesOn (threeWrites.getD 2 sub0) 0 = true ∧
    (0, 2) ∉ buildGraph unorderedQ threeWrites := by
  decide

/-- C2 (amended): for all task pairs (A, B) where A is submitted before B
and both declare a write-class access (write or read-write) on the same
buffer, the graph contains a path of edges from A to B (a direct edge when
no intervening conflicting declaration superseded A's), and in every run of
the dispatch state machine B never leaves `Pending` — in particular never
becomes `Ready` — before A is `Completed`, independent of queue
ordering. -/
theorem C2_write_write_ordering (ordered : Nat → Bool) (subs : List Sub)
    (b i j : Nat) (hij : i < j) (hj : j < subs.length)
    (hwi : writesOn (subs.getD i sub0) b = true)
    (hwj : writesOn (subs.getD j sub0) b = true) :
    GPath (buildGraph ordered subs) i j ∧
    ∀ steps ts,
      schedRun (buildGraph ordered subs) steps
        (List.replicate subs.length TState.pending) = some ts →
      ts.getD j TState.pending ≠ TState.pending →
      ts.getD i TState.pending = TState.completed := by
  have hp := writer_path ordered subs b j hj i hij hwi hwj
  refine ⟨hp, ?_⟩
  intro steps ts h hb
  have hinv := schedRun_inv _ steps _ ts h (by
    intro a2 b2 he hb2
    exact absurd (getD_replicate subs.length b2 TState.pending) hb2)
  exact path_completed_of_edge_inv _ ts hinv i j hp hb

/-- C2 witness: in the three-writer chain, task 0 reaches task 2 through a
path, and in every dispatch run task 2 stays pending until task 0 has
completed. -/
theorem C2_write_write_ordering_witness :
    GPath (buildGraph unorderedQ threeWrites) 0 2 ∧
    ∀ steps ts,
      schedRun (buildGraph unorderedQ threeWrites) steps
        (List.replicate threeWrites.length TState.pending) = some ts →
      ts.getD 2 TState.pending ≠ TState.pending →
      ts.getD 0 TState.pending = TState.completed :=
  C2_write_write_ordering unorderedQ threeWrites 0 0 2
    (by decide) (by decide) (by decide) (by decide)

theorem allCompleted_getD (ts : List TState) (i : Nat)
    (h : allCompleted ts = true) :
    ts.getD i TState.completed = TState.completed := by
  rcases Nat.lt_or_ge i ts.length with hi | hi
  · have := all_getD ts (fun t => t = TState.completed) i TState.completed h hi
    simpa using this
  · exact getD_default_of_le ts i TState.completed hi

theorem map_const_eq_replicate {α β : Type} (l : List α) (c : β) :
    l.map (fun _ => c) = List.replicate l.length c := by
  induction l with
  | nil => rfl
  | cons a t ih => simp [ih, List.replicate_succ]

theorem set_running_not_allCompleted (ts : List TState) (i : Nat)
    (hi : i < ts.length) :
    allCompleted (ts.set i TState.running) = false := by
  cases hac : allCompleted (ts.set i TState.running) with
  | false => rfl
  | true =>
      exfalso
      have h1 := allCompleted_getD (ts.set i TState.running) i hac
      rw [getD_set_self ts i TState.running TState.completed hi] at h1
      exact absurd h1 (by decide)

theorem lifeApply_c1_inv (n : Nat) (s s2 : LifeState) (st : LifeStep)
    (h : lifeApply syncWbCfg [sevenBody] s st = some s2)
    (hI : s.tstates.length = 1 ∧
      (s.wbDone = true → allCompleted s.tstates = true) ∧
      (s.deallocated = true → s.wbDone = true) ∧
      (s.releaseReturned = true → s.deallocated = true) ∧
      (s.wbDone = true → s.caller = s.dev) ∧
      s.dev.length = n ∧
      (allCompleted s.tstates = true → s.dev = List.replicate n 7)) :
    s2.tstates.length = 1 ∧
      (s2.wbDone = true → allCompleted s2.tstates = true) ∧
      (s2.deallocated = true → s2.wbDone = true) ∧
      (s2.releaseReturned = true → s2.deallocated = true) ∧
      (s2.wbDone = true → s2.caller = s2.dev) ∧
      s2.dev.length = n ∧
      (allCompleted s2.tstates = true → s2.dev = List.replicate n 7) := by
  obtain ⟨hT, hS1, hS2, hS4, hS6, hL, hE⟩ := hI
  cases st with
  | startTask i =>
      simp only [lifeApply] at h
      split at h
      case isTrue hg =>
        obtain ⟨hg1, hg2⟩ := hg
        have hs2 : s2 = { s with tstates := s.tstates.set i TState.running } :=
          (Option.some.inj h).symm
        subst hs2
        have hir : i < s.tstates.length :=
          lt_length_of_getD_ne s.tstates i TState.completed
            (by rw [hg1]; decide)
        have hnac : allCompleted (s.tstates.set i TState.running) = false :=
          set_running_not_allCompleted s.tstates i hir
        refine ⟨by simpa using hT, ?_, hS2, hS4, hS6, hL, ?_⟩
        · intro hwb
          exfalso
          have hac := hS1 hwb
          have hc := allCompleted_getD s.tstates i hac
          rw [hc] at hg1
          exact absurd hg1 (by decide)
        · intro hac2
          rw [hnac] at hac2
          exact absurd hac2 (by decide)
      case isFalse hg => exact absurd h (by simp)
  | finishTask i =>
      simp only [lifeApply] at h
      split at h
      case isTrue hg =>
        have hs2 : s2 = { s with
            tstates := s.tstates.set i TState.completed,
            dev := (([sevenBody] : List (List Int → List Int)).getD i id) s.dev } :=
          (Option.some.inj h).symm
        subst hs2
        have hir : i < s.tstates.length :=
          lt_length_of_getD_ne s.tstates i TState.completed
            (by rw [hg]; decide)
        have hi0 : i = 0 := by omega
        subst hi0
        have hwbf : s.wbDone = false := by
          cases hwb : s.wbDone with
          | false => rfl
          | true =>
              exfalso
              have hac := hS1 hwb
              have hc := allCompleted_getD s.tstates 0 hac
              rw [hc] at hg
              exact absurd hg (by decide)
        refine ⟨by simpa using hT, ?_, ?_, hS4, ?_, ?_, ?_⟩
        · intro hwb
          rw [hwbf] at hwb
          exact absurd hwb (by decide)
        · intro hd
          have := hS2 hd
          rw [hwbf] at this
          exact absurd this (by decide)
        · intro hwb
          rw [hwbf] at hwb
          exact absurd hwb (by decide)
        · show (sevenBody s.dev).length = n
          rw [sevenBody, List.length_map]
          exact hL
        · intro _
          show sevenBody s.dev = List.replicate n 7
          rw [sevenBody, map_const_eq_replicate, hL]
      case isFalse hg => exact absurd h (by simp)
  | callRelease =>
      simp only [lifeApply] at h
      split at h
      case isTrue hg =>
        have hs2 : s2 = { s with releaseCalled := true } :=
          (Option.some.inj h).symm
        subst hs2
        exact ⟨hT, hS1, hS2, hS4, hS6, hL, hE⟩
      case isFalse hg => exact absurd h (by simp)
  | doWriteback =>
      simp only [lifeApply] at h
      split at h
      case isTrue hg =>
        obtain ⟨hg1, hg2, hg3, hg4⟩ := hg
        have hs2 : s2 = { s with
            caller := if syncWbCfg.writeback then s.dev else s.caller
            wbDone := true } := (Option.some.inj h).symm
        subst hs2
        refine ⟨hT, fun _ => hg2, fun _ => rfl, hS4, ?_, hL, hE⟩
        intro _
        simp [syncWbCfg]
      case isFalse hg => exact absurd h (by simp)
  | doDealloc =>
      simp only [lifeApply] at h
      split at h
      case isTrue hg =>
        have hs2 : s2 = { s with deallocated := true } :=
          (Option.some.inj h).symm
        subst hs2
        exact ⟨hT, hS1, fun _ => hg.1, fun _ => rfl, hS6, hL, hE⟩
      case isFalse hg => exact absurd h (by simp)
  | returnRelease =>
      simp only [lifeApply] at h
      split at h
      case isTrue hg =>
        have hs2 : s2 = { s with releaseReturned := true } :=
          (Option.some.inj h).symm
        subst hs2
        exact ⟨hT, hS1, hS2, fun _ => hg.2.2 rfl, hS6, hL, hE⟩
      case isFalse hg => exact absurd h (by simp)
  | waitToken =>
      simp only [lifeApply] at h
      split at h
      case isTrue hg =>
        have hs2 : s2 = { s with waitReturned := true } :=
          (Option.some.inj h).symm
        subst hs2
        exact ⟨hT, hS1, hS2, hS4, hS6, hL, hE⟩
      case isFalse hg => exact absurd h (by simp)

theorem lifeRun_c1_inv (n : Nat) (steps : List LifeStep) :
    ∀ s0 s, lifeRun syncWbCfg [sevenBody] steps s0 = some s →
      (s0.tstates.length = 1 ∧
        (s0.wbDone = true → allCompleted s0.tstates = true) ∧
        (s0.deallocated = true → s0.wbDone = true) ∧
        (s0.releaseReturned = true → s0.deallocated = true) ∧
        (s0.wbDone = true → s0.caller = s0.dev) ∧
        s0.dev.length = n ∧
        (allCompleted s0.tstates = true → s0.dev = List.replicate n 7)) →
      (s.tstates.length = 1 ∧
        (s.wbDone = true → allCompleted s.tstates = true) ∧
        (s.deallocated = true → s.wbDone = true) ∧
        (s.releaseReturned = true → s.deallocated = true) ∧
        (s.wbDone = true → s.caller = s.dev) ∧
        s.dev.length = n ∧
        (allCompleted s.tstates = true → s.dev = List.replicate n 7)) := by
  induction steps with
  | nil =>
      intro s0 s h hI
      rw [lifeRun] at h
      have := Option.some.inj h
      subst this
      exact hI
  | cons st rest ih =>
      intro s0 s h hI
      rw [lifeRun] at h
      cases hap : lifeApply syncWbCfg [sevenBody] s0 st with
      | none =>
          rw [hap] at h
          simp at h
      | some s1 =>
          rw [hap] at h
          simp only at h
          exact ih s1 s h (lifeApply_c1_inv n s0 s1 st hap hI)

/-- C1: for a buffer over external memory with synchronous release and
write-back enabled, wrapping a caller array of zeros, with one task that
writes 7 to every element: in every run of the lifecycle machine in which
`release` has returned, every referencing task has completed, write-back
and deallocation have both happened (write-back is a precondition of
deallocation, which is a precondition of the synchronous return), and the
caller's array holds 7 in every element — never the stale zeros. -/
theorem C1_sync_writeback_release (n : Nat) (steps : List LifeStep)
    (s : LifeState)
    (h : lifeRun syncWbCfg [sevenBody] steps
      (lifeInit (List.replicate n 0) 1) = some s)
    (hr : s.releaseReturned = true) :
    allCompleted s.tstates = true ∧ s.wbDone = true ∧ s.deallocated = true ∧
    s.caller = List.replicate n 7 := by
  have hInv := lifeRun_c1_inv n steps _ s h ?_
  case _ =>
    obtain ⟨hT, hS1, hS2, hS4, hS6, hL, hE⟩ := hInv
    have hd := hS4 hr
    have hw := hS2 hd
    have hac := hS1 hw
    exact ⟨hac, hw, hd, by rw [hS6 hw, hE hac]⟩
  case _ =>
    refine ⟨by simp [lifeInit], ?_, ?_, ?_, ?_, by simp [lifeInit], ?_⟩
    · intro hx
      simp only [lifeInit] at hx
      exact absurd hx (by decide)
    · intro hx
      simp only [lifeInit] at hx
      exact absurd hx (by decide)
    · intro hx
      simp only [lifeInit] at hx
      exact absurd hx (by decide)
    · intro hx
      simp only [lifeInit] at hx
      exact absurd hx (by decide)
    · intro hx
      simp only [lifeInit] at hx
      exact absurd hx (by decide)

/-- C1 witness: a concrete run at extent 2 — release is called while the
task is pending, the task runs, then write-back, deallocation and return —
ends with the caller array holding sevens. -/
theorem C1_sync_writeback_release_witness :
    allCompleted (⟨[7, 7], [7, 7], [TState.completed],
        true, true, true, true, false⟩ : LifeState).tstates = true ∧
    (⟨[7, 7], [7, 7], [TState.completed],
        true, true, true, true, false⟩ : LifeState).wbDone = true ∧
    (⟨[7, 7], [7, 7], [TState.completed],
        true, true, true, true, false⟩ : LifeState).deallocated = true ∧
    (⟨[7, 7], [7, 7], [TState.completed],
        true, true, true, true, false⟩ : LifeState).caller =
      List.replicate 2 7 :=
  C1_sync_writeback_release 2 c1Trace
    ⟨[7, 7], [7, 7], [TState.completed], true, true, true, true, false⟩
    (by decide) (by decide)

theorem lifeApply_caller_const (rp : ReleasePolicy)
    (bodies : List (List Int → List Int)) (s s2 : LifeState) (st : LifeStep)
    (h : lifeApply (viewCfg rp) bodies s st = some s2) :
    s2.caller = s.caller := by
  cases st <;>
    · simp only [lifeApply] at h
      split at h
      · have hs2 := (Option.some.inj h).symm
        subst hs2
        simp [viewCfg]
      · exact absurd h (by simp)

theorem lifeRun_caller_const (rp : ReleasePolicy)
    (bodies : List (List Int → List Int)) (steps : List LifeStep) :
    ∀ s0 s, lifeRun (viewCfg rp) bodies steps s0 = some s →
      s.caller = s0.caller := by
  induction steps with
  | nil =>
      intro s0 s h
      rw [lifeRun] at h
      have := Option.some.inj h
      subst this
      rfl
  | cons st rest ih =>
      intro s0 s h
      rw [lifeRun] at h
      cases hap : lifeApply (viewCfg rp) bodies s0 st with
      | none =>
          rw [hap] at h
          simp at h
      | some s1 =>
          rw [hap] at h
          simp only at h
          rw [ih s1 s h, lifeApply_caller_const rp bodies s0 s1 st hap]

/-- C10: for a buffer over caller-supplied external memory with the
write-back flag disabled (make_sync_view / make_async_view), no task
execution and no release step ever modifies the caller's memory: in every
reachable state of the lifecycle machine — in particular after release has
returned — the caller's array equals its contents at buffer creation, for
any task bodies and either release policy. -/
theorem C10_view_frame (rp : ReleasePolicy)
    (bodies : List (List Int → List Int)) (c0 : List Int) (n : Nat)
    (steps : List LifeStep) (s : LifeState)
    (h : lifeRun (viewCfg rp) bodies steps (lifeInit c0 n) = some s) :
    s.caller = c0 :=
  lifeRun_caller_const rp bodies steps (lifeInit c0 n) s h

/-- C10 witness: a task overwrites the buffer contents with sevens and the
buffer is released, yet the caller's array still reads [1, 2, 3]. -/
theorem C10_view_frame_witness :
    (⟨[1, 2, 3], [7, 7, 7], [TState.completed],
        true, true, true, true, false⟩ : LifeState).caller = [1, 2, 3] :=
  C10_view_frame ReleasePolicy.synchronous [sevenBody] [1, 2, 3] 1
    [LifeStep.startTask 0, LifeStep.finishTask 0, LifeStep.callRelease,
     LifeStep.doWriteback, LifeStep.doDealloc, LifeStep.returnRelease]
    ⟨[1, 2, 3], [7, 7, 7], [TState.completed], true, true, true, true, false⟩
    (by decide)

theorem lifeApply_async_inv (bodies : List (List Int → List Int))
    (s s2 : LifeState) (st : LifeStep)
    (h : lifeApply asyncWbCfg bodies s st = some s2)
    (hI : (s.wbDone = true → allCompleted s.tstates = true) ∧
      (s.deallocated = true → s.wbDone = true) ∧
      (s.waitReturned = true → s.deallocated = true) ∧
      (s.wbDone = true → s.caller = s.dev)) :
    (s2.wbDone = true → allCompleted s2.tstates = true) ∧
      (s2.deallocated = true → s2.wbDone = true) ∧
      (s2.waitReturned = true → s2.deallocated = true) ∧
      (s2.wbDone = true → s2.caller = s2.dev) := by
  obtain ⟨hS1, hS2, hS3, hS6⟩ := hI
  cases st with
  | startTask i =>
      simp only [lifeApply] at h
      split at h
      case isTrue hg =>
        obtain ⟨hg1, hg2⟩ := hg
        have hs2 : s2 = { s with tstates := s.tstates.set i TState.running } :=
          (Option.some.inj h).symm
        subst hs2
        refine ⟨?_, hS2, hS3, hS6⟩
        intro hwb
        exfalso
        have hc := allCompleted_getD s.tstates i (hS1 hwb)
        rw [hc] at hg1
        exact absurd hg1 (by decide)
      case isFalse hg => exact absurd h (by simp)
  | finishTask i =>
      simp only [lifeApply] at h
      split at h
      case isTrue hg =>
        have hs2 : s2 = { s with
            tstates := s.tstates.set i TState.completed,
            dev := (bodies.getD i id) s.dev } := (Option.some.inj h).symm
        subst hs2
        have hwbf : s.wbDone = false := by
          cases hwb : s.wbDone with
          | false => rfl
          | true =>
              exfalso
              have hc := allCompleted_getD s.tstates i (hS1 hwb)
              rw [hc] at hg
              exact absurd hg (by decide)
        refine ⟨?_, ?_, hS3, ?_⟩
        · intro hwb
          rw [hwbf] at hwb
          exact absurd hwb (by decide)
        · intro hd
          have := hS2 hd
          rw [hwbf] at this
          exact absurd this (by decide)
        · intro hwb
          rw [hwbf] at hwb
          exact absurd hwb (by decide)
      case isFalse hg => exact absurd h (by simp)
  | callRelease =>
      simp only [lifeApply] at h
      split at h
      case isTrue hg =>
        have hs2 : s2 = { s with releaseCalled := true } :=
          (Option.some.inj h).symm
        subst hs2
        exact ⟨hS1, hS2, hS3, hS6⟩
      case isFalse hg => exact absurd h (by simp)
  | doWriteback =>
      simp only [lifeApply] at h
      split at h
      case isTrue hg =>
        obtain ⟨hg1, hg2, hg3, hg4⟩ := hg
        have hs2 : s2 = { s with
            caller := if asyncWbCfg.writeback then s.dev else s.caller,
            wbDone := true } := (Option.some.inj h).symm
        subst hs2
        refine ⟨fun _ => hg2, fun _ => rfl, hS3, ?_⟩
        intro _
        simp [asyncWbCfg]
      case isFalse hg => exact absurd h (by simp)
  | doDealloc =>
      simp only [lifeApply] at h
      split at h
      case isTrue hg =>
        have hs2 : s2 = { s with deallocated := true } :=
          (Option.some.inj h).symm
        subst hs2
        exact ⟨hS1, fun _ => hg.1, fun _ => rfl, hS6⟩
      case isFalse hg => exact absurd h (by simp)
  | returnRelease =>
      simp only [lifeApply] at h
      split at h
      case isTrue hg =>
        have hs2 : s2 = { s with releaseReturned := true } :=
          (Option.some.inj h).symm
        subst hs2
        exact ⟨hS1, hS2, hS3, hS6⟩
      case isFalse hg => exact absurd h (by simp)
  | waitToken =>
      simp only [lifeApply] at h
      split at h
      case isTrue hg =>
        have hs2 : s2 = { s with waitReturned := true } :=
          (Option.some.inj h).symm
        subst hs2
        exact ⟨hS1, hS2, fun _ => hg, hS6⟩
      case isFalse hg => exact absurd h (by simp)

theorem lifeRun_async_inv (bodies : List (List Int → List Int))
    (steps : List LifeStep) :
    ∀ s0 s, lifeRun asyncWbCfg bodies steps s0 = some s →
      ((s0.wbDone = true → allCompleted s0.tstates = true) ∧
        (s0.deallocated = true → s0.wbDone = true) ∧
        (s0.waitReturned = true → s0.deallocated = true) ∧
        (s0.wbDone = true → s0.caller = s0.dev)) →
      ((s.wbDone = true → allCompleted s.tstates = true) ∧
        (s.deallocated = true → s.wbDone = true) ∧
        (s.waitReturned = true → s.deallocated = true) ∧
        (s.wbDone = true → s.caller = s.dev)) := by
  induction steps with
  | nil =>
      intro s0 s h hI
      rw [lifeRun] at h
      have := Option.some.inj h
      subst this
      exact hI
  | cons st rest ih =>
      intro s0 s h hI
      rw [lifeRun] at h
      cases hap : lifeApply asyncWbCfg bodies s0 st with
      | none =>
          rw [hap] at h
          simp at h
      | some s1 =>
          rw [hap] at h
          simp only at h
          exact ih s1 s h (lifeApply_async_inv bodies s0 s1 st hap hI)

/-- C8: for a buffer with asynchronous release policy (and write-back over
external memory): release may return at any point after being called, with
no guard on task completion — it never blocks the caller; write-back and
deallocation are deferred until every referencing task has completed; there
is a run in which release has returned while the caller's memory is still
the stale zeros rather than the sevens the task writes; and once the
caller's separate wait on the buffer's completion token has returned, the
external memory equals the buffer's contents and all tasks have
completed. -/
theorem C8_async_release (bodies : List (List Int → List Int))
    (c0 : List Int) (n : Nat) :
    (∀ s : LifeState, s.releaseCalled = true → s.releaseReturned = false →
      lifeApply asyncWbCfg bodies s LifeStep.returnRelease =
        some { s with releaseReturned := true }) ∧
    (∀ steps s, lifeRun asyncWbCfg bodies steps (lifeInit c0 n) = some s →
      (s.wbDone = true → allCompleted s.tstates = true) ∧
      (s.deallocated = true → s.wbDone = true)) ∧
    (∃ s, lifeRun asyncWbCfg [sevenBody]
        [LifeStep.callRelease, LifeStep.returnRelease]
        (lifeInit (List.replicate 4 0) 1) = some s ∧
      s.releaseReturned = true ∧ ¬ s.caller = List.replicate 4 7) ∧
    (∀ steps s, lifeRun asyncWbCfg bodies steps (lifeInit c0 n) = some s →
      s.waitReturned = true →
      s.caller = s.dev ∧ allCompleted s.tstates = true) := by
  have hinit : ((lifeInit c0 n).wbDone = true →
        allCompleted (lifeInit c0 n).tstates = true) ∧
      ((lifeInit c0 n).deallocated = true → (lifeInit c0 n).wbDone = true) ∧
      ((lifeInit c0 n).waitReturned = true →
        (lifeInit c0 n).deallocated = true) ∧
      ((lifeInit c0 n).wbDone = true →
        (lifeInit c0 n).caller = (lifeInit c0 n).dev) := by
    refine ⟨?_, ?_, ?_, ?_⟩ <;>
      · intro hx
        simp only [lifeInit] at hx
        exact absurd hx (by decide)
  refine ⟨?_, ?_, ?_, ?_⟩
  · intro s h1 h2
    simp only [lifeApply]
    rw [if_pos ⟨h1, h2, fun hx => absurd hx (by decide)⟩]
  · intro steps s h
    obtain ⟨hS1, hS2, _, _⟩ := lifeRun_async_inv bodies steps _ s h hinit
    exact ⟨hS1, hS2⟩
  · refine ⟨⟨List.replicate 4 0, List.replicate 4 0, [TState.pending],
      true, false, false, true, false⟩, by decide, rfl, by decide⟩
  · intro steps s h hw
    obtain ⟨hS1, hS2, hS3, hS6⟩ := lifeRun_async_inv bodies steps _ s h hinit
    have hd := hS3 hw
    have hwb := hS2 hd
    exact ⟨hS6 hwb, hS1 hwb⟩

/-- C8 witness: the concrete stale run — release called and returned while
the single task is still pending, leaving the caller's zeros in place. -/
theorem C8_async_release_witness :
    ∃ s, lifeRun asyncWbCfg [sevenBody]
        [LifeStep.callRelease, LifeStep.returnRelease]
        (lifeInit (List.replicate 4 0) 1) = some s ∧
      s.releaseReturned = true ∧ ¬ s.caller = List.replicate 4 7 :=
  (C8_async_release [sevenBody] (List.replicate 4 0) 1).2.2.1

theorem filter_done_set_inc (tasks : List CasTask) (i : Nat) (t t2 : CasTask)
    (hget : tasks.get? i = some t) (hd : t.done = false)
    (hd2 : t2.done = true) :
    ((tasks.set i t2).filter fun t => t.done).length =
      ((tasks.filter fun t => t.done).length) + 1 := by
  induction tasks generalizing i with
  | nil => simp at hget
  | cons a rest ih =>
      cases i with
      | zero =>
          have ha : a = t := Option.some.inj hget
          subst ha
          simp [List.filter_cons, hd, hd2]
      | succ j =>
          have hih := ih j hget
          cases ha : a.done <;>
            simp [List.filter_cons, ha, hih]

theorem filter_done_set_same (tasks : List CasTask) (i : Nat) (t t2 : CasTask)
    (hget : tasks.get? i = some t) (hsame : t2.done = t.done) :
    ((tasks.set i t2).filter fun t => t.done).length =
      (tasks.filter fun t => t.done).length := by
  induction tasks generalizing i with
  | nil => simp at hget
  | cons a rest ih =>
      cases i with
      | zero =>
          have ha : a = t := Option.some.inj hget
          subst ha
          cases hx : a.done <;> simp [List.filter_cons, hx, hsame]
      | succ j =>
          have hih := ih j hget
          cases ha : a.done <;> simp [List.filter_cons, ha, hih]

theorem filter_done_all (tasks : List CasTask)
    (h : tasks.all (fun t => t.done) = true) :
    (tasks.filter fun t => t.done).length = tasks.length := by
  induction tasks with
  | nil => rfl
  | cons a rest ih =>
      simp only [List.all_cons, Bool.and_eq_true] at h
      simp [List.filter_cons, h.1, ih h.2]

theorem casApply_inv (inc : Int) (s s2 : CasState) (st : CasStep)
    (h : casApply inc s st = some s2)
    (hc : s.counter = inc * ((s.tasks.filter fun t => t.done).length : Int)) :
    s2.counter = inc * ((s2.tasks.filter fun t => t.done).length : Int) ∧
      s2.tasks.length = s.tasks.length := by
  cases st with
  | load i =>
      simp only [casApply] at h
      cases hget : s.tasks.get? i with
      | none =>
          rw [hget] at h
          simp at h
      | some t =>
          rw [hget] at h
          simp only at h
          split at h
          case isTrue hg =>
            have hs2 := (Option.some.inj h).symm
            subst hs2
            refine ⟨?_, by simp⟩
            rw [filter_done_set_same s.tasks i t
              { t with expected := s.counter, loaded := true } hget rfl]
            exact hc
          case isFalse hg => exact absurd h (by simp)
  | casOk i =>
      simp only [casApply] at h
      cases hget : s.tasks.get? i with
      | none =>
          rw [hget] at h
          simp at h
      | some t =>
          rw [hget] at h
          simp only at h
          split at h
          case isTrue hg =>
            by_cases heq : s.counter = t.expected
            · simp only [compare_exchange_weak, heq] at h
              simp at h
              have hs2 := h.symm
              subst hs2
              constructor
              · show t.expected + inc =
                  inc * (((s.tasks.set i { t with done := true }).filter
                    fun t => t.done).length : Int)
                rw [filter_done_set_inc s.tasks i t _ hget hg.2 rfl]
                rw [← heq, hc]
                push_cast
                ring
              · simp
            · simp [compare_exchange_weak, heq] at h
          case isFalse hg => exact absurd h (by simp)
  | casFail i =>
      simp only [casApply] at h
      cases hget : s.tasks.get? i with
      | none =>
          rw [hget] at h
          simp at h
      | some t =>
          rw [hget] at h
          simp only at h
          split at h
          case isTrue hg =>
            simp only [compare_exchange_weak] at h
            rw [if_neg (by intro hx; exact absurd hx.2 (by decide))] at h
            simp only at h
            have hs2 := (Option.some.inj h).symm
            subst hs2
            refine ⟨?_, by simp⟩
            rw [filter_done_set_same s.tasks i t
              { t with expected := s.counter } hget rfl]
            exact hc
          case isFalse hg => exact absurd h (by simp)

theorem casRun_inv (inc : Int) (steps : List CasStep) :
    ∀ s0 s, casRun inc steps s0 = some s →
      s0.counter = inc * ((s0.tasks.filter fun t => t.done).length : Int) →
      s.counter = inc * ((s.tasks.filter fun t => t.done).length : Int) ∧
        s.tasks.length = s0.tasks.length := by
  induction steps with
  | nil =>
      intro s0 s h hc
      rw [casRun] at h
      have := Option.some.inj h
      subst this
      exact ⟨hc, rfl⟩
  | cons st rest ih =>
      intro s0 s h hc
      rw [casRun] at h
      cases hap : casApply inc s0 st with
      | none =>
          rw [hap] at h
          simp at h
      | some s1 =>
          rw [hap] at h
          simp only at h
          obtain ⟨h1, h2⟩ := casApply_inv inc s0 s1 st hap hc
          obtain ⟨h3, h4⟩ := ih s1 s h h1
          exact ⟨h3, by rw [h4, h2]⟩

/-- C9: the compare_exchange_weak retry loop implements fetch_add exactly —
for any number N of concurrent tasks each adding `inc` once to a shared
counter through the retry loop, under every interleaving of loads,
successful exchanges and (possibly spurious) failed exchanges, when all N
tasks have finished the counter equals N times the increment; in particular
for N in {1, 10, 1000}. -/
theorem C9_cas_retry_fetch_add (N : Nat) (inc : Int) (steps : List CasStep)
    (s : CasState) (h : casRun inc steps (casInit N) = some s)
    (hdone : s.tasks.all (fun t => t.done) = true) :
    s.counter = N * inc := by
  have hinit : (casInit N).counter =
      inc * (((casInit N).tasks.filter fun t => t.done).length : Int) := by
    simp only [casInit]
    have : (List.replicate N (⟨0, false, false⟩ : CasTask)).filter
        (fun t => t.done) = [] := by
      apply List.filter_eq_nil_iff.mpr
      intro a ha
      have := List.eq_of_mem_replicate ha
      subst this
      decide
    rw [this]
    simp
  obtain ⟨h1, h2⟩ := casRun_inv inc steps (casInit N) s h hinit
  rw [filter_done_all s.tasks hdone] at h1
  rw [h1, h2]
  simp only [casInit, List.length_replicate]
  ring

/-- C9 witness: ten tasks each incrementing by one through the retry loop
leave the counter at exactly 10. -/
theorem C9_cas_retry_fetch_add_witness :
    (⟨10, [⟨0, true, true⟩, ⟨1, true, true⟩, ⟨2, true, true⟩,
      ⟨3, true, true⟩, ⟨4, true, true⟩, ⟨5, true, true⟩, ⟨6, true, true⟩,
      ⟨7, true, true⟩, ⟨8, true, true⟩, ⟨9, true, true⟩]⟩ : CasState).counter
      = (10 : Nat) * 1 :=
  C9_cas_retry_fetch_add 10 1 (casTrace 10)
    ⟨10, [⟨0, true, true⟩, ⟨1, true, true⟩, ⟨2, true, true⟩,
      ⟨3, true, true⟩, ⟨4, true, true⟩, ⟨5, true, true⟩, ⟨6, true, true⟩,
      ⟨7, true, true⟩, ⟨8, true, true⟩, ⟨9, true, true⟩]⟩
    (by decide) (by decide)

end SyclGuide
